import Mathlib

/-!
Verification of the simple-blockchain repository's core chain logic.

The Go sources under pkg/blockchain, pkg/consensus and pkg/network are
shallowly embedded below.  The SHA-256 digest (Go's crypto/sha256 +
encoding/hex, an external library, not repository code) is abstracted as a
parameter `H : String → String`; every definition that hashes takes `H`
explicitly.  Concrete evaluations instantiate `H` with a simple total
function `demoDigest`.

Go `int` is embedded as `Int` (no arithmetic here approaches 2^63, so
overflow is ignored).  The unbounded nonce-search loop in `GenerateBlock`
is embedded with explicit fuel returning an `Option`.
-/

namespace SimpleBlockchain

/-- Block mirrors the Go struct `Block` in pkg/blockchain/block.go:
Index, Timestamp, Data, Hash, PrevHash, Difficulty, Nonce. -/
structure Block where
  index : Int
  timestamp : String
  data : String
  hash : String
  prevHash : String
  difficulty : Int
  nonce : String
deriving DecidableEq, Repr

/-- fmt.Sprintf("%x", i) for a non-negative integer: lowercase hexadecimal,
no padding. -/
def natToHex (n : Nat) : String :=
  String.mk (Nat.toDigits 16 n)

/-- strings.Repeat("0", n) for n ≥ 0. -/
def repeatZeros (n : Nat) : String :=
  String.mk (List.replicate n '0')

/-- strings.HasPrefix, stated on the character lists underlying the two
strings (byte-level and character-level prefixing coincide for valid
UTF-8). -/
def hasPrefix (s p : String) : Bool :=
  List.isPrefixOf p.data s.data

/-- CalculateHash (block.go): digest of
strconv.Itoa(Index) ++ Timestamp ++ Data ++ PrevHash ++ Nonce.
Note the Hash and Difficulty fields are not part of the record. -/
def CalculateHash (H : String → String) (block : Block) : String :=
  H (toString block.index ++ block.timestamp ++ block.data
      ++ block.prevHash ++ block.nonce)

/-- IsHashValid (block.go): the hash has at least `difficulty` leading '0'
hex characters.  Go's strings.Repeat panics on a negative count; all call
sites in the repository use non-negative difficulties, and the embedding
totalises with `Int.toNat`. -/
def IsHashValid (hash : String) (difficulty : Int) : Bool :=
  hasPrefix hash (repeatZeros difficulty.toNat)

/-- The zero-valued block GenerateBlock starts from before the nonce
search: index, timestamp, data, prevHash and difficulty set; hash and
nonce still at their Go zero value "". -/
def newBlockBase (oldBlock : Block) (data : String) (difficulty : Int)
    (t : String) : Block :=
  { index := oldBlock.index + 1
    timestamp := t
    data := data
    hash := ""
    prevHash := oldBlock.hash
    difficulty := difficulty
    nonce := "" }

/-- The `for i := 0; ; i++` nonce-search loop of GenerateBlock, with
explicit fuel; `none` models non-termination within the fuel bound. -/
def mineLoop (H : String → String) (base : Block) :
    Nat → Nat → Option Block
  | 0, _ => none
  | fuel + 1, i =>
    let candidate := { base with nonce := natToHex i }
    let newBlockHash := CalculateHash H candidate
    if IsHashValid newBlockHash candidate.difficulty then
      some { candidate with hash := newBlockHash }
    else
      mineLoop H base fuel (i + 1)

/-- GenerateBlock (block.go).  The timestamp `t` stands for
time.Now().String(); the Go function's error result is always nil, so the
`Option` here only reflects the fuel bound on the nonce search. -/
def GenerateBlock (H : String → String) (oldBlock : Block) (data : String)
    (difficulty : Int) (t : String) (fuel : Nat) : Option Block :=
  mineLoop H (newBlockBase oldBlock data difficulty t) fuel 0

/-- IsBlockValid (block.go): index increments, prevHash links to previous
hash, and the stored hash recomputes.  Difficulty is not consulted. -/
def IsBlockValid (H : String → String) (newBlock oldBlock : Block) : Bool :=
  if oldBlock.index + 1 != newBlock.index then false
  else if oldBlock.hash != newBlock.prevHash then false
  else if CalculateHash H newBlock != newBlock.hash then false
  else true

/-- CreateGenesisBlock (block.go): index 0, data "Genesis Block",
difficulty 1, empty nonce and prevHash; hash computed over those fields. -/
def CreateGenesisBlock (H : String → String) (t : String) : Block :=
  let genesisBlock : Block :=
    { index := 0
      timestamp := t
      data := "Genesis Block"
      hash := ""
      difficulty := 1
      nonce := ""
      prevHash := "" }
  { genesisBlock with hash := CalculateHash H genesisBlock }

/-- The validation loop of ReplaceChain (chain.go):
`for i := 1; i < len(newChain); i++ { if !IsBlockValid(newChain[i],
newChain[i-1]) { return false } }`. -/
def chainLinksValid (H : String → String) : List Block → Bool
  | [] => true
  | [_] => true
  | b0 :: b1 :: rest =>
    IsBlockValid H b1 b0 && chainLinksValid H (b1 :: rest)

/-- ReplaceChain (chain.go): returned pair is the chain state after the
call together with the Go boolean result. -/
def ReplaceChain (H : String → String) (blocks newChain : List Block) :
    List Block × Bool :=
  if newChain.length ≤ blocks.length then (blocks, false)
  else if chainLinksValid H newChain then (newChain, true)
  else (blocks, false)

/-- AddBlock (chain.go): seals a new block atop the tip with
GenerateBlock, appends it only when IsBlockValid holds against the tip,
and returns the sealed block either way.  `none` covers the empty-chain
panic (unreachable from NewBlockchain) and nonce-search fuel
exhaustion. -/
def AddBlock (H : String → String) (blocks : List Block) (data : String)
    (difficulty : Int) (t : String) (fuel : Nat) :
    Option (List Block × Block) :=
  match blocks.getLast? with
  | none => none
  | some tip =>
    match GenerateBlock H tip data difficulty t fuel with
    | none => none
    | some newBlock =>
      if IsBlockValid H newBlock tip then
        some (blocks ++ [newBlock], newBlock)
      else
        some (blocks, newBlock)

/-- NewBlockchain (chain.go): a fresh chain holding just the genesis
block. -/
def NewBlockchain (H : String → String) (t : String) : List Block :=
  [CreateGenesisBlock H t]

/-- ProofOfStake (consensus package): difficulty parameter plus the
staker-address-to-stake mapping (the random source is irrelevant to
ValidateBlock). -/
structure ProofOfStake where
  difficulty : Int
  stakers : List (String × Int)

/-- ProofOfStake.ValidateBlock: the placeholder that returns true
unconditionally. -/
def ProofOfStake.ValidateBlock (_pos : ProofOfStake) (_block : Block) :
    Bool :=
  true

/-- The P2P node state touched by handleBroadcastBlock: the chain and the
known-block set (Go map[string]bool, embedded as the list of hashes marked
true). -/
structure NodeState where
  chain : List Block
  knownBlocks : List String
deriving DecidableEq, Repr

/-- handleBroadcastBlock (p2p.go), the state transition part: a duplicate
hash is acknowledged untouched; otherwise the hash is marked seen first,
then the block is validated against the current tip and, when valid,
ReplaceChain is attempted on chain ++ [block].  `none` models the panic of
GetLatestBlock on an empty chain. -/
def handleBroadcastBlock (H : String → String) (s : NodeState)
    (block : Block) : Option NodeState :=
  if s.knownBlocks.contains block.hash then
    some s
  else
    match s.chain.getLast? with
    | none => none
    | some tip =>
      if IsBlockValid H block tip then
        some { chain := (ReplaceChain H s.chain (s.chain ++ [block])).1,
               knownBlocks := block.hash :: s.knownBlocks }
      else
        some { s with knownBlocks := block.hash :: s.knownBlocks }

/-- A sequence of gossip deliveries processed by handleBroadcastBlock. -/
def deliverAll (H : String → String) : NodeState → List Block →
    Option NodeState
  | s, [] => some s
  | s, b :: bs =>
    match handleBroadcastBlock H s b with
    | none => none
    | some s1 => deliverAll H s1 bs

/-- Chain states reachable from node start: genesis creation followed by
any sequence of AddBlock and ReplaceChain operations. -/
inductive Reachable (H : String → String) : List Block → Prop where
  | genesis (t : String) : Reachable H (NewBlockchain H t)
  | add (blocks blocks2 : List Block) (b : Block) (data : String)
      (difficulty : Int) (t : String) (fuel : Nat) :
      Reachable H blocks →
      AddBlock H blocks data difficulty t fuel = some (blocks2, b) →
      Reachable H blocks2
  | replace (blocks newChain : List Block) :
      Reachable H blocks →
      Reachable H (ReplaceChain H blocks newChain).1

/-- A fixed stand-in digest used for concrete evaluations: constant
"00". -/
def demoDigest (_ : String) : String := "00"

/-! Concrete blocks and chains used in witnesses and counterexamples. -/

/-- The genesis block under the stand-in digest. -/
def genesisW : Block := CreateGenesisBlock demoDigest "T"

/-- A block validly extending `genesisW` under the stand-in digest. -/
def blockW1 : Block :=
  { index := 1, timestamp := "t1", data := "d1", hash := "00",
    prevHash := "00", difficulty := 1, nonce := "n" }

/-- The single-block local chain used in concrete evaluations. -/
def chainW0 : List Block := [genesisW]

/-- A two-block candidate chain whose adjacent pair is valid. -/
def candW : List Block := [genesisW, blockW1]

/-- A candidate head block with non-zero index and a stored hash that does
not recompute. -/
def headC9 : Block :=
  { index := 5, timestamp := "", data := "", hash := "deadbeef",
    prevHash := "zzz", difficulty := 9, nonce := "" }

/-- A block validly extending `headC9` under the stand-in digest, with a
difficulty its own hash does not meet. -/
def succC9 : Block :=
  { index := 6, timestamp := "", data := "", hash := "00",
    prevHash := "deadbeef", difficulty := 7, nonce := "x" }

/-- The candidate chain starting at the malformed head. -/
def candC9 : List Block := [headC9, succC9]

/-- The block AddBlock seals and appends under the stand-in digest. -/
def addW : Block :=
  { index := 1, timestamp := "t1", data := "d1", hash := "00",
    prevHash := "00", difficulty := 1, nonce := "0" }

/-- The block GenerateBlock produces at difficulty 0 under the stand-in
digest. -/
def resW0 : Block :=
  { index := 1, timestamp := "t", data := "d", hash := "00",
    prevHash := "00", difficulty := 0, nonce := "0" }

/-- A gossiped block that fails IsBlockValid against the genesis tip (its
index is not 1). -/
def badW : Block :=
  { index := 99, timestamp := "", data := "", hash := "bad",
    prevHash := "", difficulty := 1, nonce := "" }

/-- The block mineLoop returns for nonce integer n: the search base with
that nonce and the digest over it stored as hash. -/
def minedBlock (H : String → String) (base : Block) (n : Nat) : Block :=
  let candidate := { base with nonce := natToHex n }
  { candidate with hash := CalculateHash H candidate }

/-- The spec's stored-chain invariant, following §3 of the spec verbatim:
(a) index contiguous from 0, (b) prevHash links to the previous hash,
(c) every stored hash recomputes and satisfies its own difficulty. -/
def specChainInvariant (H : String → String) (c : List Block) : Prop :=
  (∀ i : Fin c.length, (c.get i).index = (i.val : Int)) ∧
  (∀ i : Fin c.length, 0 < i.val →
    (c.get i).prevHash =
      (c.get ⟨i.val - 1, Nat.lt_of_le_of_lt (Nat.sub_le _ _) i.isLt⟩).hash) ∧
  (∀ b ∈ c, CalculateHash H b = b.hash ∧
    IsHashValid b.hash b.difficulty = true)

/-! Helper lemmas shared across the claim theorems. -/

theorem isHashValid_zero (h : String) : IsHashValid h 0 = true := by
  simp [IsHashValid, hasPrefix, repeatZeros]

theorem mineLoop_spec (H : String → String) (base : Block) :
    ∀ fuel i b, mineLoop H base fuel i = some b →
      ∃ n, i ≤ n ∧ b = minedBlock H base n ∧
        IsHashValid (CalculateHash H { base with nonce := natToHex n })
          base.difficulty = true ∧
        ∀ m, i ≤ m → m < n →
          IsHashValid (CalculateHash H { base with nonce := natToHex m })
            base.difficulty = false := by
  intro fuel
  induction fuel with
  | zero => intro i b h; simp [mineLoop] at h
  | succ fuel ih =>
    intro i b h
    simp only [mineLoop] at h
    split at h
    · rename_i hvalid
      refine ⟨i, le_refl i, ?_, hvalid, ?_⟩
      · exact (Option.some_inj.mp h).symm
      · intro m him hmi
        omega
    · rename_i hfail
      obtain ⟨n, hin, hb, hv, hmin⟩ := ih (i + 1) b h
      refine ⟨n, by omega, hb, hv, ?_⟩
      intro m him hmn
      rcases Nat.eq_or_lt_of_le him with heq | hlt
      · subst heq
        exact Bool.eq_false_iff.mpr hfail
      · exact hmin m hlt hmn

theorem addBlock_cases (H : String → String) (blocks : List Block)
    (data : String) (difficulty : Int) (t : String) (fuel : Nat)
    (blocks2 : List Block) (b : Block)
    (h : AddBlock H blocks data difficulty t fuel = some (blocks2, b)) :
    ∃ tip, blocks.getLast? = some tip ∧
      GenerateBlock H tip data difficulty t fuel = some b ∧
      ((IsBlockValid H b tip = true ∧ blocks2 = blocks ++ [b]) ∨
        (IsBlockValid H b tip = false ∧ blocks2 = blocks)) := by
  unfold AddBlock at h
  split at h
  · exact absurd h (by simp)
  · rename_i tip htip
    split at h
    · exact absurd h (by simp)
    · rename_i nb hgen
      split at h
      · rename_i hv
        simp only [Option.some_inj, Prod.mk.injEq] at h
        obtain ⟨rfl, rfl⟩ := h
        exact ⟨tip, htip, hgen, Or.inl ⟨hv, rfl⟩⟩
      · rename_i hv
        simp only [Option.some_inj, Prod.mk.injEq] at h
        obtain ⟨rfl, rfl⟩ := h
        exact ⟨tip, htip, hgen, Or.inr ⟨Bool.eq_false_iff.mpr hv, rfl⟩⟩

theorem replaceChain_fst_cases (H : String → String)
    (blocks newChain : List Block) :
    (ReplaceChain H blocks newChain).1 = blocks ∨
      ((ReplaceChain H blocks newChain).1 = newChain ∧
        blocks.length < newChain.length ∧
        chainLinksValid H newChain = true) := by
  unfold ReplaceChain
  split
  · left; rfl
  · rename_i hlen
    split
    · rename_i hvalid
      right
      exact ⟨rfl, by omega, hvalid⟩
    · left; rfl

theorem calculateHash_hash_irrel (H : String → String) (b : Block)
    (x : String) :
    CalculateHash H { b with hash := x } = CalculateHash H b := rfl

theorem isBlockValid_eq_true_iff (H : String → String)
    (newBlock oldBlock : Block) :
    IsBlockValid H newBlock oldBlock = true ↔
      (newBlock.index = oldBlock.index + 1 ∧
        newBlock.prevHash = oldBlock.hash ∧
        CalculateHash H newBlock = newBlock.hash) := by
  simp only [IsBlockValid]
  split
  · rename_i h
    simp only [bne_iff_ne, ne_eq] at h
    simp only [Bool.false_eq_true, false_iff]
    intro ⟨h1, _, _⟩
    exact h h1.symm
  · rename_i h1
    simp only [bne_iff_ne, ne_eq, not_not] at h1
    split
    · rename_i h2
      simp only [bne_iff_ne, ne_eq] at h2
      simp only [Bool.false_eq_true, false_iff]
      intro ⟨_, h2', _⟩
      exact h2 h2'.symm
    · rename_i h2
      simp only [bne_iff_ne, ne_eq, not_not] at h2
      split
      · rename_i h3
        simp only [bne_iff_ne, ne_eq] at h3
        simp only [Bool.false_eq_true, false_iff]
        intro ⟨_, _, h3'⟩
        exact h3 h3'
      · rename_i h3
        simp only [bne_iff_ne, ne_eq, not_not] at h3
        simp only [true_iff]
        exact ⟨h1.symm, h2.symm, h3⟩

theorem chainLinksValid_iff_chain (H : String → String) :
    ∀ l : List Block, chainLinksValid H l = true ↔
      List.Chain' (fun a b => IsBlockValid H b a = true) l
  | [] => by simp [chainLinksValid]
  | [b] => by simp [chainLinksValid]
  | b0 :: b1 :: rest => by
    rw [chainLinksValid, Bool.and_eq_true,
      chainLinksValid_iff_chain H (b1 :: rest), List.chain'_cons]

/-! Claim theorems. -/

/-- C1: ReplaceChain installs the candidate if and only if it is strictly
longer than the local chain and every adjacent pair in it satisfies
IsBlockValid; in every other case (equal length included) it returns false
and leaves the local chain unchanged. -/
theorem replaceChain_longest_valid (H : String → String)
    (blocks newChain : List Block) :
    (blocks.length < newChain.length ∧
        List.Chain' (fun a b => IsBlockValid H b a = true) newChain →
      ReplaceChain H blocks newChain = (newChain, true)) ∧
    (¬ (blocks.length < newChain.length ∧
        List.Chain' (fun a b => IsBlockValid H b a = true) newChain) →
      ReplaceChain H blocks newChain = (blocks, false)) := by
  constructor
  · intro ⟨hlen, hchain⟩
    rw [ReplaceChain, if_neg (by omega),
      if_pos ((chainLinksValid_iff_chain H newChain).mpr hchain)]
  · intro h
    rw [ReplaceChain]
    by_cases hlen : newChain.length ≤ blocks.length
    · rw [if_pos hlen]
    · rw [if_neg hlen]
      have hB : ¬ chainLinksValid H newChain = true := fun hc =>
        h ⟨by omega, (chainLinksValid_iff_chain H newChain).mp hc⟩
      rw [if_neg hB]

/-- Witness for C1 at concrete inputs: a longer valid candidate is
installed; an equal-length candidate is refused and the chain kept. -/
theorem replaceChain_longest_valid_witness :
    ReplaceChain demoDigest chainW0 candW = (candW, true) ∧
    ReplaceChain demoDigest candW candW = (candW, false) :=
  ⟨(replaceChain_longest_valid demoDigest chainW0 candW).1
      ⟨by decide, (chainLinksValid_iff_chain demoDigest candW).mp (by decide)⟩,
    (replaceChain_longest_valid demoDigest candW candW).2
      (fun h => absurd h.1 (by decide))⟩

/-- C4: IsBlockValid returns true exactly when the index increments, the
prevHash links to the previous hash, and the stored hash recomputes; the
result is unchanged under arbitrary rewrites of both difficulty fields. -/
theorem isBlockValid_characterisation (H : String → String)
    (newBlock oldBlock : Block) (d1 d2 : Int) :
    (IsBlockValid H newBlock oldBlock = true ↔
      (newBlock.index = oldBlock.index + 1 ∧
        newBlock.prevHash = oldBlock.hash ∧
        CalculateHash H newBlock = newBlock.hash)) ∧
    IsBlockValid H { newBlock with difficulty := d1 }
        { oldBlock with difficulty := d2 } =
      IsBlockValid H newBlock oldBlock :=
  ⟨isBlockValid_eq_true_iff H newBlock oldBlock, rfl⟩

/-- C8: the proof-of-stake strategy's ValidateBlock accepts every block
unconditionally, whatever the difficulty and stakers. -/
theorem proofOfStake_validateBlock_always_true (pos : ProofOfStake)
    (block : Block) :
    pos.ValidateBlock block = true := rfl

/-- C9: ReplaceChain never examines the candidate's first block on its
own: a concrete candidate whose head has index 5 and a stored hash that
does not recompute, but whose adjacent pair is valid, is installed with
result true. -/
theorem replaceChain_ignores_head :
    candC9.head? = some headC9 ∧
    headC9.index ≠ 0 ∧
    CalculateHash demoDigest headC9 ≠ headC9.hash ∧
    chainW0.length < candC9.length ∧
    List.Chain' (fun a b => IsBlockValid demoDigest b a = true) candC9 ∧
    ReplaceChain demoDigest chainW0 candC9 = (candC9, true) := by
  refine ⟨rfl, by decide, by decide, by decide,
    (chainLinksValid_iff_chain demoDigest candC9).mp (by decide), by decide⟩

/-- C3: GenerateBlock increments the index, links prevHash to the
previous hash, stores the searched digest as hash (which recomputes and
meets the difficulty), and its nonce is the lowercase-hex rendering of the
first integer in 0,1,2,... whose digest meets the difficulty; at
difficulty 0 the first nonce tried, "0", is accepted. -/
theorem generateBlock_spec (H : String → String) (oldBlock : Block)
    (data : String) (difficulty : Int) (t : String) (fuel : Nat) (b : Block)
    (hd : 0 ≤ difficulty)
    (h : GenerateBlock H oldBlock data difficulty t fuel = some b) :
    b.index = oldBlock.index + 1 ∧ b.prevHash = oldBlock.hash ∧
    b.timestamp = t ∧ b.data = data ∧ b.difficulty = difficulty ∧
    CalculateHash H b = b.hash ∧ IsHashValid b.hash difficulty = true ∧
    (∃ n : Nat, b.nonce = natToHex n ∧
      b.hash = CalculateHash H
        { newBlockBase oldBlock data difficulty t with nonce := natToHex n } ∧
      ∀ m < n, IsHashValid (CalculateHash H
        { newBlockBase oldBlock data difficulty t with nonce := natToHex m })
        difficulty = false) ∧
    (difficulty = 0 → b.nonce = "0") := by
  obtain ⟨n, -, hb, hv, hmin⟩ :=
    mineLoop_spec H (newBlockBase oldBlock data difficulty t) fuel 0 b h
  subst hb
  refine ⟨rfl, rfl, rfl, rfl, rfl, rfl, hv, ⟨n, rfl, rfl,
    fun m hm => hmin m (Nat.zero_le m) hm⟩, ?_⟩
  intro h0
  subst h0
  have hn : n = 0 := by
    by_contra hne
    have h2 : IsHashValid (CalculateHash H
        { newBlockBase oldBlock data 0 t with nonce := natToHex 0 }) 0 =
        false :=
      hmin 0 (Nat.zero_le 0) (Nat.pos_of_ne_zero hne)
    rw [isHashValid_zero] at h2
    exact absurd h2 (by decide)
  subst hn
  rfl

/-- Witness for C3 at a concrete input: mining at difficulty 0 with fuel 1
atop the demo genesis block yields `resW0` with nonce "0". -/
theorem generateBlock_spec_witness :
    0 ≤ (0 : Int) ∧
    GenerateBlock demoDigest genesisW "d" 0 "t" 1 = some resW0 ∧
    (resW0.index = genesisW.index + 1 ∧ resW0.prevHash = genesisW.hash ∧
      resW0.timestamp = "t" ∧ resW0.data = "d" ∧ resW0.difficulty = 0 ∧
      CalculateHash demoDigest resW0 = resW0.hash ∧
      IsHashValid resW0.hash 0 = true ∧
      (∃ n : Nat, resW0.nonce = natToHex n ∧
        resW0.hash = CalculateHash demoDigest
          { newBlockBase genesisW "d" 0 "t" with nonce := natToHex n } ∧
        ∀ m < n, IsHashValid (CalculateHash demoDigest
          { newBlockBase genesisW "d" 0 "t" with nonce := natToHex m })
          0 = false) ∧
      ((0 : Int) = 0 → resW0.nonce = "0")) :=
  ⟨le_refl 0, by decide,
    generateBlock_spec demoDigest genesisW "d" 0 "t" 1 resW0 (le_refl 0)
      (by decide)⟩

/-- C7: whenever AddBlock returns, the returned block is exactly the one
GenerateBlock sealed atop the current tip, and the chain was extended by
that block exactly when IsBlockValid held against the tip; the sealed
block is returned in the non-append case as well. -/
theorem addBlock_returns_sealed (H : String → String) (blocks : List Block)
    (data : String) (difficulty : Int) (t : String) (fuel : Nat)
    (blocks2 : List Block) (b : Block)
    (h : AddBlock H blocks data difficulty t fuel = some (blocks2, b)) :
    ∃ tip, blocks.getLast? = some tip ∧
      GenerateBlock H tip data difficulty t fuel = some b ∧
      blocks2 = (if IsBlockValid H b tip then blocks ++ [b] else blocks) := by
  obtain ⟨tip, htip, hgen, hcase⟩ :=
    addBlock_cases H blocks data difficulty t fuel blocks2 b h
  rcases hcase with ⟨hv, rfl⟩ | ⟨hv, rfl⟩
  · exact ⟨tip, htip, hgen, (if_pos hv).symm⟩
  · exact ⟨tip, htip, hgen, (if_neg (by simp [hv])).symm⟩

/-- Witness for C7 at a concrete input: appending atop the demo genesis
chain returns the sealed block `addW` and extends the chain with it. -/
theorem addBlock_returns_sealed_witness :
    AddBlock demoDigest chainW0 "d1" 1 "t1" 1 = some (chainW0 ++ [addW], addW) ∧
    (∃ tip, chainW0.getLast? = some tip ∧
      GenerateBlock demoDigest tip "d1" 1 "t1" 1 = some addW ∧
      chainW0 ++ [addW] =
        (if IsBlockValid demoDigest addW tip then chainW0 ++ [addW]
          else chainW0)) :=
  ⟨by decide,
    addBlock_returns_sealed demoDigest chainW0 "d1" 1 "t1" 1
      (chainW0 ++ [addW]) addW (by decide)⟩

/-- C5: chain length never decreases under a single AddBlock or
ReplaceChain operation. -/
theorem chainLength_monotone (H : String → String) (blocks : List Block)
    (data : String) (difficulty : Int) (t : String) (fuel : Nat)
    (newChain blocks2 : List Block) (b : Block) :
    (AddBlock H blocks data difficulty t fuel = some (blocks2, b) →
      blocks.length ≤ blocks2.length) ∧
    blocks.length ≤ (ReplaceChain H blocks newChain).1.length := by
  constructor
  · intro h
    obtain ⟨tip, -, -, hcase⟩ :=
      addBlock_cases H blocks data difficulty t fuel blocks2 b h
    rcases hcase with ⟨-, rfl⟩ | ⟨-, rfl⟩
    · simp
    · exact le_refl _
  · rcases replaceChain_fst_cases H blocks newChain with h1 | ⟨h1, hlen, -⟩
    · rw [h1]
    · rw [h1]; omega

/-- Witness for C5 at concrete inputs: an AddBlock append and a
ReplaceChain install, both from the demo genesis chain. -/
theorem chainLength_monotone_witness :
    chainW0.length ≤ (chainW0 ++ [addW]).length ∧
    chainW0.length ≤ (ReplaceChain demoDigest chainW0 candW).1.length :=
  ⟨(chainLength_monotone demoDigest chainW0 "d1" 1 "t1" 1 candW
      (chainW0 ++ [addW]) addW).1 (by decide),
    (chainLength_monotone demoDigest chainW0 "d1" 1 "t1" 1 candW
      (chainW0 ++ [addW]) addW).2⟩

theorem handle_knownBlocks_mono (H : String → String) (s : NodeState)
    (b' : Block) (s' : NodeState)
    (h : handleBroadcastBlock H s b' = some s') (x : String)
    (hx : s.knownBlocks.contains x = true) :
    s'.knownBlocks.contains x = true := by
  unfold handleBroadcastBlock at h
  split at h
  · obtain rfl := Option.some_inj.mp h; exact hx
  · split at h
    · exact absurd h (by simp)
    · split at h
      · obtain rfl := Option.some_inj.mp h
        simp only [List.contains_cons, hx, Bool.or_true]
      · obtain rfl := Option.some_inj.mp h
        simp only [List.contains_cons, hx, Bool.or_true]

theorem handle_not_in_chain (H : String → String) (s : NodeState)
    (b b' : Block) (s' : NodeState)
    (hknown : s.knownBlocks.contains b.hash = true)
    (hchain : b ∉ s.chain) (h : handleBroadcastBlock H s b' = some s') :
    b ∉ s'.chain := by
  unfold handleBroadcastBlock at h
  split at h
  · obtain rfl := Option.some_inj.mp h; exact hchain
  · rename_i hc
    split at h
    · exact absurd h (by simp)
    · rename_i tip htip
      split at h
      · obtain rfl := Option.some_inj.mp h
        show b ∉ (ReplaceChain H s.chain (s.chain ++ [b'])).1
        rcases replaceChain_fst_cases H s.chain (s.chain ++ [b']) with
          h1 | ⟨h1, -, -⟩
        · rw [h1]; exact hchain
        · rw [h1]
          intro hmem
          rcases List.mem_append.mp hmem with hm | hm
          · exact hchain hm
          · simp only [List.mem_singleton] at hm
            subst hm
            rw [hknown] at hc
            exact hc rfl
      · obtain rfl := Option.some_inj.mp h; exact hchain

theorem deliverAll_preserves (H : String → String) (b : Block) :
    ∀ (bs : List Block) (s s2 : NodeState),
      s.knownBlocks.contains b.hash = true → b ∉ s.chain →
      deliverAll H s bs = some s2 →
      s2.knownBlocks.contains b.hash = true ∧ b ∉ s2.chain
  | [], s, s2, hk, hc, h => by
    obtain rfl := Option.some_inj.mp h
    exact ⟨hk, hc⟩
  | b' :: bs, s, s2, hk, hc, h => by
    rw [deliverAll] at h
    split at h
    · exact absurd h (by simp)
    · rename_i s1 hs1
      exact deliverAll_preserves H b bs s1 s2
        (handle_knownBlocks_mono H s b' s1 hs1 b.hash hk)
        (handle_not_in_chain H s b b' s1 hk hc hs1) h

/-- C2 counterexample: the two-block chain with malformed head `headC9` is
reachable (genesis, then one ReplaceChain of a longer candidate whose only
adjacent pair is valid), yet it violates the spec's stored-chain
invariant: its first block has index 5, its first block's hash does not
recompute, and its blocks' hashes do not meet their own difficulties. -/
theorem reachable_violates_invariant :
    Reachable demoDigest candC9 ∧ ¬ specChainInvariant demoDigest candC9 ∧
    headC9.index ≠ 0 ∧ CalculateHash demoDigest headC9 ≠ headC9.hash ∧
    IsHashValid succC9.hash succC9.difficulty = false := by
  refine ⟨?_, ?_, by decide, by decide, by decide⟩
  · have hg : Reachable demoDigest chainW0 := Reachable.genesis "T"
    have h := Reachable.replace chainW0 candC9 hg
    have he : (ReplaceChain demoDigest chainW0 candC9).1 = candC9 := by decide
    rwa [he] at h
  · intro ⟨ha, _, _⟩
    have h0 := ha ⟨0, by decide⟩
    exact absurd h0 (by decide)

/-- C2 amended: every chain reachable from node start is nonempty and
every adjacent pair in it satisfies IsBlockValid (contiguous indices,
prevHash links and recomputing hashes hold between neighbours, though not
for the first block on its own, and no difficulty predicate is
guaranteed). -/
theorem reachable_adjacent_valid (H : String → String) (c : List Block)
    (h : Reachable H c) :
    c ≠ [] ∧ List.Chain' (fun a b => IsBlockValid H b a = true) c := by
  induction h with
  | genesis t =>
    refine ⟨by simp [NewBlockchain], ?_⟩
    simp [NewBlockchain]
  | add blocks blocks2 b data difficulty t fuel hr hadd ih =>
    obtain ⟨hne, hchain⟩ := ih
    obtain ⟨tip, htip, -, hcase⟩ :=
      addBlock_cases H blocks data difficulty t fuel blocks2 b hadd
    rcases hcase with ⟨hv, rfl⟩ | ⟨-, rfl⟩
    · refine ⟨by simp, ?_⟩
      refine List.chain'_append.mpr ⟨hchain, by simp, ?_⟩
      intro x hx y hy
      simp only [List.head?_cons, Option.mem_def, Option.some_inj] at hy
      rw [htip] at hx
      simp only [Option.mem_def, Option.some_inj] at hx
      subst hx
      subst hy
      exact hv
    · exact ⟨hne, hchain⟩
  | replace blocks newChain hr ih =>
    rcases replaceChain_fst_cases H blocks newChain with h1 | ⟨h1, hlen, hvalid⟩
    · rw [h1]; exact ih
    · rw [h1]
      refine ⟨?_, (chainLinksValid_iff_chain H newChain).mp hvalid⟩
      intro hnil
      rw [hnil] at hlen
      simp at hlen

/-- Witness for the amended C2 at a concrete reachable chain: the genesis
chain itself. -/
theorem reachable_adjacent_valid_witness :
    chainW0 ≠ [] ∧
    List.Chain' (fun a b => IsBlockValid demoDigest b a = true) chainW0 :=
  reachable_adjacent_valid demoDigest chainW0 (Reachable.genesis "T")

/-- C6: gossip delivery is idempotent: a second delivery of the same block
reproduces exactly the state after the first, and a delivery whose hash is
already known changes nothing. -/
theorem handleBroadcastBlock_idempotent (H : String → String)
    (s : NodeState) (block : Block) (s1 : NodeState)
    (h : handleBroadcastBlock H s block = some s1) :
    handleBroadcastBlock H s1 block = some s1 ∧
    (s.knownBlocks.contains block.hash = true → s1 = s) := by
  by_cases hc : s.knownBlocks.contains block.hash
  · unfold handleBroadcastBlock at h
    rw [if_pos hc] at h
    obtain rfl := Option.some_inj.mp h
    exact ⟨by unfold handleBroadcastBlock; rw [if_pos hc], fun _ => rfl⟩
  · unfold handleBroadcastBlock at h
    rw [if_neg hc] at h
    have hknown : s1.knownBlocks = block.hash :: s.knownBlocks := by
      split at h
      · exact absurd h (by simp)
      · split at h
        · obtain rfl := Option.some_inj.mp h; rfl
        · obtain rfl := Option.some_inj.mp h; rfl
    have hcontains : s1.knownBlocks.contains block.hash = true := by
      rw [hknown]; simp
    constructor
    · unfold handleBroadcastBlock
      rw [if_pos hcontains]
    · exact fun hcc => absurd hcc hc

/-- Witness for C6 at a concrete input: a first delivery of `blockW1`
extends the demo chain and records the hash; re-delivering is a no-op. -/
theorem handleBroadcastBlock_idempotent_witness :
    handleBroadcastBlock demoDigest ⟨chainW0, []⟩ blockW1 =
      some ⟨candW, ["00"]⟩ ∧
    handleBroadcastBlock demoDigest ⟨candW, ["00"]⟩ blockW1 =
      some ⟨candW, ["00"]⟩ :=
  ⟨by decide,
    (handleBroadcastBlock_idempotent demoDigest ⟨chainW0, []⟩ blockW1
      ⟨candW, ["00"]⟩ (by decide)).1⟩

/-- C10: the received-block handler records the hash before validating, so
when a block's first delivery fails IsBlockValid against the current tip,
the chain is unchanged, the hash is known, and after any further sequence
of deliveries every re-delivery of that block is a no-op and the block
never enters the chain through the gossip path. -/
theorem firstDeliveryInvalid_never_accepted (H : String → String)
    (s : NodeState) (block tip : Block) (s1 : NodeState)
    (htip : s.chain.getLast? = some tip)
    (hnew : s.knownBlocks.contains block.hash = false)
    (hinv : IsBlockValid H block tip = false)
    (hmem : block ∉ s.chain)
    (h : handleBroadcastBlock H s block = some s1) :
    s1.chain = s.chain ∧ s1.knownBlocks.contains block.hash = true ∧
    ∀ bs s2, deliverAll H s1 bs = some s2 →
      handleBroadcastBlock H s2 block = some s2 ∧ block ∉ s2.chain := by
  unfold handleBroadcastBlock at h
  rw [if_neg (by rw [hnew]; simp)] at h
  split at h
  · exact absurd h (by simp)
  · rename_i tip' htip'
    have h2 : s.chain.getLast? = some tip' := htip'
    rw [htip] at h2
    obtain rfl := Option.some_inj.mp h2
    rw [if_neg (by rw [hinv]; simp)] at h
    obtain rfl := Option.some_inj.mp h
    refine ⟨rfl, by simp, ?_⟩
    intro bs s2 hdel
    have hk1 : (⟨s.chain, block.hash :: s.knownBlocks⟩ :
        NodeState).knownBlocks.contains block.hash = true := by simp
    obtain ⟨hk2, hc2⟩ := deliverAll_preserves H block bs _ s2 hk1 hmem hdel
    refine ⟨?_, hc2⟩
    unfold handleBroadcastBlock
    rw [if_pos hk2]

/-- Witness for C10 at concrete inputs: `badW` fails validation against
the genesis tip, is recorded, and after a further valid delivery of
`blockW1` its re-delivery is still a no-op and it is not in the chain. -/
theorem firstDeliveryInvalid_never_accepted_witness :
    handleBroadcastBlock demoDigest ⟨chainW0, []⟩ badW =
      some ⟨chainW0, ["bad"]⟩ ∧
    deliverAll demoDigest ⟨chainW0, ["bad"]⟩ [blockW1] =
      some ⟨candW, ["00", "bad"]⟩ ∧
    handleBroadcastBlock demoDigest ⟨candW, ["00", "bad"]⟩ badW =
      some ⟨candW, ["00", "bad"]⟩ ∧
    badW ∉ candW :=
  ⟨by decide, by decide,
    ((firstDeliveryInvalid_never_accepted demoDigest ⟨chainW0, []⟩ badW
        genesisW ⟨chainW0, ["bad"]⟩ (by decide) (by decide) (by decide)
        (by decide) (by decide)).2.2 [blockW1] ⟨candW, ["00", "bad"]⟩
      (by decide)).1,
    ((firstDeliveryInvalid_never_accepted demoDigest ⟨chainW0, []⟩ badW
        genesisW ⟨chainW0, ["bad"]⟩ (by decide) (by decide) (by decide)
        (by decide) (by decide)).2.2 [blockW1] ⟨candW, ["00", "bad"]⟩
      (by decide)).2⟩

end SimpleBlockchain
